import Mathlib

/-!
Verification of the timeline segmentation and summarization engine of the
AzureOpenAISample backend (`app/services/summarization_service.py` and
`app/services/azure_openai_service.py`).

Python strings are modelled as `List Char`; Python floats (all times are
seconds) are modelled as exact rationals `ℚ`; a Python dict returned by the
text-generation backend is modelled as a record of `Option` fields (a missing
key is `none`); an exception thrown along the remote-provider path is modelled
as the remote call returning `none`.  The `while` loop of
`_split_into_timelines` is embedded as a fuel-indexed recursion (`splitGo`);
`split_into_timelines` supplies the exact number of iterations the source loop
performs when the interval width is positive, and the separate cursor
iteration function `splitCursorIter` models the raw loop so that
(non-)termination itself can be stated.
-/

/-- Python `str` modelled as a list of characters. -/
abbrev Str := List Char

/-- Python `str.lower()` (the source only relies on ASCII behaviour, which
`Char.toLower` implements). -/
def lowerStr (s : Str) : Str := s.map Char.toLower

/-- Python's substring test `needle in hay`. -/
def pyIn (needle hay : Str) : Bool := decide (needle <:+: hay)

/-- Python `str.split('\n')`: splits at every newline; the empty string yields
one empty line, so the result is never the empty list. -/
def splitNl : Str → List Str
  | [] => [[]]
  | c :: cs =>
    if c = '\n' then [] :: splitNl cs
    else
      match splitNl cs with
      | [] => [[c]]
      | l :: ls => (c :: l) :: ls

/-- Python `sep.join(parts)`. -/
def joinSep (sep : Str) : List Str → Str
  | [] => []
  | [x] => x
  | x :: y :: ys => x ++ sep ++ joinSep sep (y :: ys)

/-- Python `set` iteration modelled as first-occurrence deduplication (the
spec tolerates any deterministic order for set-derived sequences). -/
def dedupFirst {α : Type} [DecidableEq α] : List α → List α
  | [] => []
  | a :: as => a :: (dedupFirst as).filter fun b => decide (b ≠ a)

/-- Lexicographic comparison of strings by code point, as Python `<` on `str`. -/
def strLt : Str → Str → Bool
  | [], [] => false
  | [], _ :: _ => true
  | _ :: _, [] => false
  | a :: as, b :: bs => if a < b then true else if b < a then false else strLt as bs

/-- Insert into a sorted list (helper for `sortStrs`). -/
def insertSorted (x : Str) : List Str → List Str
  | [] => [x]
  | y :: ys => if strLt y x then y :: insertSorted x ys else x :: y :: ys

/-- Python `list.sort()` on a list of strings (insertion sort; ascending,
which is all the source relies on). -/
def sortStrs (l : List Str) : List Str := l.foldr insertSorted []

/-- A transcript segment (`app/models/transcript.py`, `TranscriptSegment`);
the `id` and `timestamp` fields are never read by the summarization core and
are omitted. -/
structure TranscriptSegment where
  speaker_id : Str
  text : Str
  start_time : ℚ
  end_time : ℚ
  confidence : ℚ
deriving DecidableEq, Repr

/-- A meeting session (`app/models/transcript.py`, `MeetingSession`); only
the fields read by `summarize_meeting` are retained. -/
structure MeetingSession where
  id : Str
  duration : ℚ
  participants : List Str
  transcript : List TranscriptSegment
deriving DecidableEq, Repr

/-- One window dict produced by `_split_into_timelines` (keys `start_time`,
`end_time`, `segments`). -/
structure Timeline where
  start_time : ℚ
  end_time : ℚ
  segments : List TranscriptSegment
deriving DecidableEq, Repr

/-- A timeline summary (`app/models/summary.py`, `TimelineSummary`). -/
structure TimelineSummary where
  time_range : Str
  start_time : ℚ
  end_time : ℚ
  speakers : List Str
  key_points : List Str
  topics : List Str
  action_items : List Str
deriving DecidableEq, Repr

/-- The final response (`app/models/summary.py`, `MeetingSummaryResponse`);
`generated_at` (a wall-clock timestamp) is modelled as a rational supplied by
the caller. -/
structure MeetingSummaryResponse where
  meeting_id : Str
  generated_at : ℚ
  total_duration : ℚ
  timeline_summaries : List TimelineSummary
  overall_summary : Str
  key_decisions : List Str
  follow_up_actions : List Str
deriving DecidableEq, Repr

/-- The segments whose `start_time` lies in `[lo, hi)` — the list
comprehension at lines 81–84 of `summarization_service.py`. -/
def rangeSegs (segments : List TranscriptSegment) (lo hi : ℚ) : List TranscriptSegment :=
  segments.filter fun s => decide (lo ≤ s.start_time ∧ s.start_time < hi)

/-- Fuel-indexed embedding of the `while current_time < total_duration` loop of
`_split_into_timelines` (lines 77–94): each iteration emits the window
`[current, min (current + W) D)` when it contains at least one segment and
advances the cursor to the window's end. -/
def splitGo (segments : List TranscriptSegment) (W D : ℚ) : ℕ → ℚ → List Timeline
  | 0, _ => []
  | fuel + 1, current =>
    if current < D then
      if rangeSegs segments current (min (current + W) D) = [] then
        splitGo segments W D fuel (min (current + W) D)
      else
        { start_time := current
          end_time := min (current + W) D
          segments := rangeSegs segments current (min (current + W) D) } ::
          splitGo segments W D fuel (min (current + W) D)
    else []

/-- Embedding of `_split_into_timelines(segments, total_duration)` with interval width `W`.
The fuel `⌈D / W⌉₊` is exactly the number of iterations the source loop
performs when `0 < W` (see `splitGo_stable`); for `W ≤ 0` the source loop
never terminates (see `splitCursorIter`), so no fuel value is meaningful
there. -/
def split_into_timelines (segments : List TranscriptSegment) (W D : ℚ) : List Timeline :=
  splitGo segments W D ⌈D / W⌉₊ 0

/-- One iteration of the source loop acting on the cursor alone: if the guard
`current_time < total_duration` holds the cursor moves to
`min (current + W) D`, otherwise the loop has exited and the cursor stays. -/
def splitStep (W D cur : ℚ) : ℚ := if cur < D then min (cur + W) D else cur

/-- The cursor after `n` iterations of the source loop. -/
def splitCursorIter (W D : ℚ) : ℕ → ℚ → ℚ
  | 0, cur => cur
  | n + 1, cur => splitCursorIter W D n (splitStep W D cur)

/-- The source loop terminates iff the cursor, started at `0`, reaches
`total_duration` after finitely many iterations. -/
def splitLoopTerminates (W D : ℚ) : Prop := ∃ n, D ≤ splitCursorIter W D n 0

/-- The dict returned for one window by the text-generation backend
(`generate_timeline_summary`); each field `none` models a missing key. -/
structure TimelineRespDict where
  key_points : Option (List Str)
  topics : Option (List Str)
  action_items : Option (List Str)
deriving DecidableEq, Repr

/-- The dict returned by `generate_overall_summary`; each field `none` models
a missing key. -/
structure OverallRespDict where
  overall_summary : Option Str
  key_decisions : Option (List Str)
  follow_up_actions : Option (List Str)
deriving DecidableEq, Repr

/-- The fixed keyword list of `_mock_timeline_summary` (line 186). -/
def mockKeywords : List Str :=
  ["Azure", "Speech", "OpenAI", "iOS", "backend", "test", "integration",
    "implementation"].map fun s => s.toList

/-- The canned key points of `_mock_timeline_summary` (lines 195–199). -/
def cannedKeyPoints : List Str :=
  ["Discussed Azure Speech-to-Text integration with speaker diarization",
    "Reviewed timeline-based summarization approach using OpenAI",
    "Planned testing strategy with mock data before production"].map fun s => s.toList

/-- The canned action items of `_mock_timeline_summary` (lines 201–204). -/
def cannedActionItems : List Str :=
  ["Prepare mock data for testing", "Review progress in next meeting"].map fun s => s.toList

/-- The canned key decisions of `_mock_overall_summary` (lines 225–229). -/
def cannedKeyDecisions : List Str :=
  ["Use Python for backend prototype testing",
    "Implement timeline-based summarization with 5-minute intervals",
    "Test with mock data before Azure API integration"].map fun s => s.toList

/-- The canned follow-up actions of `_mock_overall_summary` (lines 230–234). -/
def cannedFollowUps : List Str :=
  ["Complete backend prototype", "Schedule follow-up sync meeting",
    "Prepare test scenarios"].map fun s => s.toList

/-- Decimal rendering of a natural number, as Python `str(int)`. -/
def natToStr (n : ℕ) : Str := (Nat.repr n).toList

/-- Decimal rendering of an integer, as Python `str(int)`. -/
def intToStr (n : ℤ) : Str := if n < 0 then '-' :: natToStr (-n).toNat else natToStr n.toNat

/-- Embedding of `AzureOpenAIService._mock_timeline_summary` (lines 172–205). -/
def mock_timeline_summary (transcript time_range : Str) (speakers : List Str) :
    TimelineRespDict :=
  let lines := splitNl transcript
  let topics := mockKeywords.filter fun keyword =>
    lines.any fun line => pyIn (lowerStr keyword) (lowerStr line)
  let topics := if topics = [] then ["General Discussion".toList, "Planning".toList] else topics
  { key_points := some (cannedKeyPoints.take lines.length)
    topics := some (topics.take 4)
    action_items := some
      (if pyIn "test".toList (lowerStr transcript) ||
          pyIn "action".toList (lowerStr transcript) then cannedActionItems else []) }

/-- Embedding of `AzureOpenAIService._mock_overall_summary` (lines 207–235).  Python `set`
iteration order is modelled as first-occurrence order (the spec's design note
tolerates any order for set-derived sequences). -/
def mock_overall_summary (summaries : List TimelineSummary) : OverallRespDict :=
  let allTopics := dedupFirst (summaries.flatMap fun s => s.topics)
  let allActions := summaries.flatMap fun s => s.action_items
  { overall_summary := some
      ("Team meeting covering ".toList ++ natToStr summaries.length ++
        " discussion segments. Main topics included ".toList ++
        joinSep ", ".toList (allTopics.take 3) ++
        ". Agreed on implementation approach and testing strategy.".toList)
    key_decisions := some cannedKeyDecisions
    follow_up_actions := some
      (if allActions = [] then cannedFollowUps else dedupFirst allActions) }

/-- State of an `AzureOpenAIService` instance.  `useMock` is the `self.use_mock`
flag; the two `remote` fields model the outcome of the whole remote-provider
path (chat-completion request plus JSON parsing of the completion) for given
arguments: `some r` is a successfully parsed dict and `none` is any raised
exception. -/
structure AzureOpenAIService where
  useMock : Bool
  remoteTimeline : Str → Str → List Str → Option TimelineRespDict
  remoteOverall : List TimelineSummary → Option OverallRespDict

/-- Embedding of `AzureOpenAIService.__init__` (lines 16–35): `use_mock` is the disjunction
of the constructor argument and the settings flag, and a failed construction
of the `AzureOpenAI` client (`ctorOK = false`) flips the instance to mock
mode. -/
def mkAzureOpenAIService (use_mock settingsUseMock ctorOK : Bool)
    (remoteTimeline : Str → Str → List Str → Option TimelineRespDict)
    (remoteOverall : List TimelineSummary → Option OverallRespDict) :
    AzureOpenAIService :=
  { useMock := (use_mock || settingsUseMock) || !(use_mock || settingsUseMock) && !ctorOK
    remoteTimeline := remoteTimeline
    remoteOverall := remoteOverall }

/-- Embedding of `AzureOpenAIService.generate_timeline_summary` (lines 37–104): mock mode
answers from `_mock_timeline_summary`; otherwise the remote path is attempted
and any exception (modelled by `none`) falls back to `_mock_timeline_summary`
with the same arguments. -/
def generate_timeline_summary (svc : AzureOpenAIService)
    (transcript_segment time_range : Str) (speakers : List Str) : TimelineRespDict :=
  if svc.useMock then mock_timeline_summary transcript_segment time_range speakers
  else
    match svc.remoteTimeline transcript_segment time_range speakers with
    | some result => result
    | none => mock_timeline_summary transcript_segment time_range speakers

/-- Embedding of `AzureOpenAIService.generate_overall_summary` (lines 106–170). -/
def generate_overall_summary (svc : AzureOpenAIService)
    (all_summaries : List TimelineSummary) : OverallRespDict :=
  if svc.useMock then mock_overall_summary all_summaries
  else
    match svc.remoteOverall all_summaries with
    | some result => result
    | none => mock_overall_summary all_summaries

/-- The deterministic fallback variant: a service in mock mode (its remote
fields are never consulted). -/
def mockService : AzureOpenAIService :=
  { useMock := true, remoteTimeline := fun _ _ _ => none, remoteOverall := fun _ => none }

/-- A live-mode service whose remote provider always succeeds and returns the
fixed dicts `r` and `ro` — used to state how the summarizer treats an
arbitrary backend response. -/
def liveServiceConst (r : TimelineRespDict) (ro : OverallRespDict) : AzureOpenAIService :=
  { useMock := false, remoteTimeline := fun _ _ _ => some r, remoteOverall := fun _ => some ro }

/-- Python float `a % b` (result carries the sign of `b`); used by
`_format_time` with positive moduli. -/
def pyMod (a b : ℚ) : ℚ := a - b * ⌊a / b⌋

/-- Zero-padded two-digit rendering, Python `f-string` format `:02d`. -/
def pad2 (n : ℤ) : Str := if 0 ≤ n ∧ n < 10 then '0' :: intToStr n else intToStr n

/-- Embedding of `SummarizationService._format_time` (lines 141–159).  In the source the
three quantities are produced by `int()` applied to `//` and `%` results;
since `//` already floors and `%` with a positive modulus is non-negative,
each is exactly a floor. -/
def format_time (seconds : ℚ) : Str :=
  let hours : ℤ := ⌊seconds / 3600⌋
  let minutes : ℤ := ⌊pyMod seconds 3600 / 60⌋
  let secs : ℤ := ⌊pyMod seconds 60⌋
  if 0 < hours then
    intToStr hours ++ ':' :: pad2 minutes ++ ':' :: pad2 secs
  else
    intToStr minutes ++ ':' :: pad2 secs

/-- Embedding of `SummarizationService._summarize_timeline_segment` (lines 98–139). -/
def summarize_timeline_segment (svc : AzureOpenAIService) (segment_data : Timeline) :
    TimelineSummary :=
  let start := segment_data.start_time
  let stop := segment_data.end_time
  let segs := segment_data.segments
  let time_range := format_time start ++ " - ".toList ++ format_time stop
  let transcript_text :=
    joinSep ['\n'] (segs.map fun seg => seg.speaker_id ++ ": ".toList ++ seg.text)
  let speakers := sortStrs (dedupFirst (segs.map fun seg => seg.speaker_id))
  let summary_data := generate_timeline_summary svc transcript_text time_range speakers
  { time_range := time_range
    start_time := start
    end_time := stop
    speakers := speakers
    key_points := summary_data.key_points.getD []
    topics := summary_data.topics.getD []
    action_items := summary_data.action_items.getD [] }

/-- Embedding of `SummarizationService.summarize_meeting` (lines 27–57); `W` is the
configured `timeline_interval_seconds` and `now` the `datetime.now()`
timestamp. -/
def summarize_meeting (svc : AzureOpenAIService) (W now : ℚ) (meeting : MeetingSession) :
    MeetingSummaryResponse :=
  let timeline_segments := split_into_timelines meeting.transcript W meeting.duration
  let timeline_summaries := timeline_segments.map (summarize_timeline_segment svc)
  let overall_data := generate_overall_summary svc timeline_summaries
  { meeting_id := meeting.id
    generated_at := now
    total_duration := meeting.duration
    timeline_summaries := timeline_summaries
    overall_summary := overall_data.overall_summary.getD "No summary available".toList
    key_decisions := overall_data.key_decisions.getD []
    follow_up_actions := overall_data.follow_up_actions.getD [] }

/-- Zero-padded two-digit rendering of a natural number (helper for the
spec-side formatter). -/
def pad2Nat (n : ℕ) : Str := if n < 10 then '0' :: natToStr n else natToStr n

/-- The time format exactly as the spec words it: a non-negative amount of
seconds is truncated to whole seconds `t` and rendered as `M:SS` when under
one hour (minutes unpadded, seconds zero-padded to two digits) and as
`H:MM:SS` otherwise (hours unpadded, minutes and seconds zero-padded). -/
def formatTimeSpec (seconds : ℚ) : Str :=
  let t : ℕ := ⌊seconds⌋₊
  if t < 3600 then natToStr (t / 60) ++ ':' :: pad2Nat (t % 60)
  else natToStr (t / 3600) ++ ':' :: pad2Nat (t / 60 % 60) ++ ':' :: pad2Nat (t % 60)

/-- Concrete segment starting at time 0 (test data). -/
def segZero : TranscriptSegment :=
  { speaker_id := "A".toList, text := "hi".toList, start_time := 0, end_time := 1,
    confidence := 1 }

/-- Concrete segment starting at time 10 (test data). -/
def segTest : TranscriptSegment :=
  { speaker_id := "Speaker 1".toList, text := "Azure test".toList, start_time := 10,
    end_time := 20, confidence := 1 }

/-- A meeting with an empty transcript and zero duration (test data). -/
def emptyMeeting : MeetingSession :=
  { id := "m0".toList, duration := 0, participants := [], transcript := [] }

/-- A meeting with one segment (test data). -/
def oneSegMeeting : MeetingSession :=
  { id := "m1".toList, duration := 500, participants := ["Speaker 1".toList],
    transcript := [segTest] }

/-- A live-mode service whose remote provider always raises (test data). -/
def failingService : AzureOpenAIService :=
  { useMock := false, remoteTimeline := fun _ _ _ => none, remoteOverall := fun _ => none }

/-- While the guard holds, at least one more loop iteration is needed. -/
theorem ceil_fuel_pos {W D cur : ℚ} (hW : 0 < W) (h : cur < D) :
    1 ≤ ⌈(D - cur) / W⌉₊ :=
  Nat.one_le_iff_ne_zero.mpr fun h0 =>
    absurd (Nat.ceil_eq_zero.mp h0) (not_le.mpr (div_pos (by linarith) hW))

/-- Advancing the cursor one step consumes exactly one unit of fuel. -/
theorem ceil_fuel_step {W D cur : ℚ} {fuel : ℕ} (hW : 0 < W) (h : cur < D)
    (hf : ⌈(D - cur) / W⌉₊ ≤ fuel + 1) :
    ⌈(D - min (cur + W) D) / W⌉₊ ≤ fuel := by
  rcases le_or_lt D (cur + W) with hle | hlt
  · rw [min_eq_right hle]
    simp
  · rw [min_eq_left hlt.le]
    have hx : (0 : ℚ) ≤ (D - (cur + W)) / W := div_nonneg (by linarith) hW.le
    have hsplit : (D - cur) / W = (D - (cur + W)) / W + 1 := by
      field_simp
      ring
    rw [hsplit, Nat.ceil_add_one hx] at hf
    omega

/-- Once the cursor has reached the total duration the loop body never runs. -/
theorem splitGo_nil_of_le {ss : List TranscriptSegment} {W D : ℚ} {cur : ℚ}
    (h : D ≤ cur) : ∀ fuel, splitGo ss W D fuel cur = [] := by
  intro fuel
  cases fuel with
  | zero => rfl
  | succ n => simp [splitGo, not_lt.mpr h]

/-- Structural invariant of the partitioning loop: every emitted window starts
at or after the current cursor, starts before the total duration, ends at
`min (start + W) D`, carries exactly the segments whose `start_time` lies in
its range, and starts on the cursor's `W`-grid. -/
theorem splitGo_invariant {ss : List TranscriptSegment} {W D : ℚ} (hW : 0 < W) :
    ∀ (fuel : ℕ) (cur : ℚ), ∀ w ∈ splitGo ss W D fuel cur,
      cur ≤ w.start_time ∧ w.start_time < D ∧
      w.end_time = min (w.start_time + W) D ∧
      w.segments = rangeSegs ss w.start_time w.end_time ∧
      ∃ k : ℕ, w.start_time = cur + k * W := by
  intro fuel
  induction fuel with
  | zero => intro cur w hw; simp [splitGo] at hw
  | succ n ih =>
    intro cur w hw
    by_cases hguard : cur < D
    · simp only [splitGo, if_pos hguard] at hw
      rcases le_or_lt D (cur + W) with hle | hlt
      · rw [min_eq_right hle, splitGo_nil_of_le (le_refl D)] at hw
        rcases em (rangeSegs ss cur D = []) with hempty | hempty
        · simp [hempty] at hw
        · simp only [if_neg hempty] at hw
          simp only [List.mem_singleton] at hw
          subst hw
          exact ⟨le_refl _, hguard, by simp [min_eq_right hle], rfl, 0, by ring⟩
      · rw [min_eq_left hlt.le] at hw
        have hrest : w ∈ splitGo ss W D n (cur + W) →
            cur ≤ w.start_time ∧ w.start_time < D ∧
            w.end_time = min (w.start_time + W) D ∧
            w.segments = rangeSegs ss w.start_time w.end_time ∧
            ∃ k : ℕ, w.start_time = cur + k * W := by
          intro hmem
          obtain ⟨h1, h2, h3, h4, k, h5⟩ := ih (cur + W) w hmem
          refine ⟨by linarith, h2, h3, h4, k + 1, ?_⟩
          rw [h5]; push_cast; ring
        rcases em (rangeSegs ss cur (cur + W) = []) with hempty | hempty
        · rw [if_pos hempty] at hw
          exact hrest hw
        · rw [if_neg hempty] at hw
          rcases List.mem_cons.mp hw with hhead | htail
          · subst hhead
            exact ⟨le_refl _, hguard, by simp [min_eq_left hlt.le], rfl, 0, by ring⟩
          · exact hrest htail
    · rw [splitGo_nil_of_le (not_lt.mp hguard)] at hw
      simp at hw

/-- Consecutive emitted windows do not overlap: each ends no later than the
next begins. -/
theorem splitGo_chain {ss : List TranscriptSegment} {W D : ℚ} (hW : 0 < W) :
    ∀ (fuel : ℕ) (cur : ℚ),
      (splitGo ss W D fuel cur).Chain' fun a b => a.end_time ≤ b.start_time := by
  intro fuel
  induction fuel with
  | zero => intro cur; simp [splitGo]
  | succ n ih =>
    intro cur
    by_cases hguard : cur < D
    · simp only [splitGo, if_pos hguard]
      rcases em (rangeSegs ss cur (min (cur + W) D) = []) with hempty | hempty
      · rw [if_pos hempty]; exact ih _
      · rw [if_neg hempty]
        refine List.chain'_cons'.mpr ⟨?_, ih _⟩
        intro y hy
        have hmem := List.mem_of_mem_head? hy
        exact (splitGo_invariant hW n (min (cur + W) D) y hmem).1
    · rw [splitGo_nil_of_le (not_lt.mp hguard)]
      exact List.chain'_nil

/-- With enough fuel the result no longer depends on the fuel: this is the
termination of the source loop expressed on the fuel-indexed embedding. -/
theorem splitGo_stable {ss : List TranscriptSegment} {W D : ℚ} (hW : 0 < W) :
    ∀ (fuel₁ fuel₂ : ℕ) (cur : ℚ), ⌈(D - cur) / W⌉₊ ≤ fuel₁ → fuel₁ ≤ fuel₂ →
      splitGo ss W D fuel₁ cur = splitGo ss W D fuel₂ cur := by
  intro fuel₁
  induction fuel₁ with
  | zero =>
    intro fuel₂ cur hfuel _
    have hcur : D ≤ cur := by
      have h0 : (D - cur) / W ≤ 0 := Nat.ceil_eq_zero.mp (Nat.le_zero.mp hfuel)
      nlinarith [(div_le_iff hW).mp h0]
    rw [splitGo_nil_of_le hcur, splitGo_nil_of_le hcur]
  | succ n ih =>
    intro fuel₂ cur hfuel hle
    obtain ⟨m, rfl⟩ : ∃ m, fuel₂ = m + 1 := ⟨fuel₂ - 1, by omega⟩
    by_cases hguard : cur < D
    · simp only [splitGo, if_pos hguard]
      rw [ih m (min (cur + W) D) (ceil_fuel_step hW hguard hfuel) (by omega)]
    · rw [splitGo_nil_of_le (not_lt.mp hguard), splitGo_nil_of_le (not_lt.mp hguard)]

/-- Coverage: a segment whose `start_time` lies in `[cur, D)` is counted by
exactly one emitted window, and a segment starting before `cur` or at or past
`D` lies in no emitted window. -/
theorem splitGo_coverage {ss : List TranscriptSegment} {W D : ℚ} (hW : 0 < W) :
    ∀ (fuel : ℕ) (cur : ℚ), ⌈(D - cur) / W⌉₊ ≤ fuel → ∀ s ∈ ss,
      (cur ≤ s.start_time ∧ s.start_time < D →
        ((splitGo ss W D fuel cur).countP fun w => decide (s ∈ w.segments)) = 1) ∧
      ((s.start_time < cur ∨ D ≤ s.start_time) →
        ∀ w ∈ splitGo ss W D fuel cur, s ∉ w.segments) := by
  intro fuel
  induction fuel with
  | zero =>
    intro cur hfuel s _
    have hcur : D ≤ cur := by
      have h0 : (D - cur) / W ≤ 0 := Nat.ceil_eq_zero.mp (Nat.le_zero.mp hfuel)
      nlinarith [(div_le_iff hW).mp h0]
    constructor
    · rintro ⟨h1, h2⟩; linarith
    · intro _ w hw; simp [splitGo] at hw
  | succ n ih =>
    intro cur hfuel s hs
    by_cases hguard : cur < D
    case neg =>
      have hcur : D ≤ cur := not_lt.mp hguard
      constructor
      · rintro ⟨h1, h2⟩; linarith
      · intro _ w hw; rw [splitGo_nil_of_le hcur] at hw; simp at hw
    case pos =>
    have hfuel' := ceil_fuel_step hW hguard hfuel
    have hcur' : cur < min (cur + W) D := lt_min (by linarith) hguard
    have hmemrange : ∀ lo hi : ℚ, s ∈ rangeSegs ss lo hi ↔
        lo ≤ s.start_time ∧ s.start_time < hi := by
      intro lo hi
      simp [rangeSegs, List.mem_filter, hs]
    simp only [splitGo, if_pos hguard]
    constructor
    · rintro ⟨h1, h2⟩
      by_cases hst : s.start_time < min (cur + W) D
      · have hsrange : s ∈ rangeSegs ss cur (min (cur + W) D) :=
          (hmemrange _ _).mpr ⟨h1, hst⟩
        have hnonempty : rangeSegs ss cur (min (cur + W) D) ≠ [] :=
          List.ne_nil_of_mem hsrange
        rw [if_neg hnonempty]
        rw [List.countP_cons]
        have hzero : ((splitGo ss W D n (min (cur + W) D)).countP
            fun w => decide (s ∈ w.segments)) = 0 := by
          rw [List.countP_eq_zero]
          intro w hw
          simp only [decide_eq_true_eq]
          exact ((ih (min (cur + W) D) hfuel' s hs).2 (Or.inl hst)) w hw
        simp [hzero, hsrange]
      · have hge : min (cur + W) D ≤ s.start_time := not_lt.mp hst
        have hone := (ih (min (cur + W) D) hfuel' s hs).1 ⟨hge, h2⟩
        rcases em (rangeSegs ss cur (min (cur + W) D) = []) with hempty | hempty
        · rw [if_pos hempty]; exact hone
        · rw [if_neg hempty, List.countP_cons]
          have hnot : s ∉ rangeSegs ss cur (min (cur + W) D) := by
            rw [hmemrange]; rintro ⟨_, hc⟩; linarith
          simp [hone, hnot]
    · intro hout
      have hout' : s.start_time < min (cur + W) D ∨ D ≤ s.start_time := by
        rcases hout with h | h
        · exact Or.inl (lt_trans h hcur')
        · exact Or.inr h
      have hnothead : s ∉ rangeSegs ss cur (min (cur + W) D) := by
        rw [hmemrange]
        rintro ⟨hc1, hc2⟩
        rcases hout with h | h
        · linarith
        · have : min (cur + W) D ≤ D := min_le_right _ _
          linarith
      have hrest := (ih (min (cur + W) D) hfuel' s hs).2 hout'
      intro w hw
      rcases em (rangeSegs ss cur (min (cur + W) D) = []) with hempty | hempty
      · rw [if_pos hempty] at hw; exact hrest w hw
      · rw [if_neg hempty] at hw
        rcases List.mem_cons.mp hw with hhead | htail
        · subst hhead; exact hnothead
        · exact hrest w htail

/-- Once at or past the duration, the cursor never moves again. -/
theorem splitCursorIter_const {W D cur : ℚ} (h : D ≤ cur) :
    ∀ n, splitCursorIter W D n cur = cur := by
  intro n
  induction n with
  | zero => rfl
  | succ m ih =>
    have hstep : splitStep W D cur = cur := by simp [splitStep, not_lt.mpr h]
    calc splitCursorIter W D (m + 1) cur
        = splitCursorIter W D m (splitStep W D cur) := rfl
      _ = cur := by rw [hstep]; exact ih

/-- Progress: after `n` iterations the cursor is at least
`min (cur + n * W) D`. -/
theorem splitCursorIter_ge {W D : ℚ} (hW : 0 < W) :
    ∀ (n : ℕ) (cur : ℚ), min (cur + n * W) D ≤ splitCursorIter W D n cur := by
  intro n
  induction n with
  | zero =>
    intro cur
    show min (cur + ((0 : ℕ) : ℚ) * W) D ≤ cur
    rw [Nat.cast_zero, zero_mul, add_zero]
    exact min_le_left _ _
  | succ m ih =>
    intro cur
    by_cases hguard : cur < D
    · have hstep : splitStep W D cur = min (cur + W) D := by simp [splitStep, hguard]
      show min (cur + (m + 1 : ℕ) * W) D ≤ splitCursorIter W D m (splitStep W D cur)
      rw [hstep]
      rcases le_or_lt D (cur + W) with hle | hlt
      · rw [min_eq_right hle, splitCursorIter_const (le_refl D)]
        exact min_le_right _ _
      · rw [min_eq_left hlt.le]
        have harg : cur + (m + 1 : ℕ) * W = cur + W + (m : ℕ) * W := by push_cast; ring
        rw [harg]
        exact ih (cur + W)
    · have hcur : D ≤ cur := not_lt.mp hguard
      have hstep : splitStep W D cur = cur := by simp [splitStep, hguard]
      show min (cur + (m + 1 : ℕ) * W) D ≤ splitCursorIter W D m (splitStep W D cur)
      rw [hstep, splitCursorIter_const hcur]
      exact le_trans (min_le_right _ _) hcur

/-- For a positive interval width the source loop always terminates, after at
most `⌈D / W⌉₊` iterations. -/
theorem split_terminates {W D : ℚ} (hW : 0 < W) : splitLoopTerminates W D := by
  refine ⟨⌈D / W⌉₊, ?_⟩
  have hDW : D ≤ (⌈D / W⌉₊ : ℚ) * W := by
    rcases le_or_lt D 0 with hD | hD
    · exact le_trans hD (by positivity)
    · have := Nat.le_ceil (D / W)
      calc D = D / W * W := by field_simp
        _ ≤ (⌈D / W⌉₊ : ℚ) * W := by
            exact mul_le_mul_of_nonneg_right this hW.le
  have hge := @splitCursorIter_ge W D hW ⌈D / W⌉₊ 0
  rw [zero_add] at hge
  exact le_trans (le_min hDW (le_refl D)) hge

/-- Unfolding lemma: filtering an empty segment list. -/
theorem rangeSegs_nil (lo hi : ℚ) : rangeSegs [] lo hi = [] := rfl

/-- Unfolding lemma: filtering a cons cell, with the range test as a
proposition. -/
theorem rangeSegs_cons (s : TranscriptSegment) (ss : List TranscriptSegment) (lo hi : ℚ) :
    rangeSegs (s :: ss) lo hi =
      if lo ≤ s.start_time ∧ s.start_time < hi then s :: rangeSegs ss lo hi
      else rangeSegs ss lo hi := by
  by_cases h : lo ≤ s.start_time ∧ s.start_time < hi
  · simp [rangeSegs, List.filter_cons, h]
  · simp [rangeSegs, List.filter_cons, h]

/-- The start times of the emitted windows are strictly increasing. -/
theorem splitGo_start_chain {ss : List TranscriptSegment} {W D : ℚ} (hW : 0 < W) :
    ∀ (fuel : ℕ) (cur : ℚ),
      ((splitGo ss W D fuel cur).map fun w => w.start_time).Chain' fun a b => a < b := by
  intro fuel
  induction fuel with
  | zero => intro cur; simp [splitGo]
  | succ n ih =>
    intro cur
    by_cases hguard : cur < D
    · simp only [splitGo, if_pos hguard]
      rcases em (rangeSegs ss cur (min (cur + W) D) = []) with hempty | hempty
      · rw [if_pos hempty]; exact ih _
      · rw [if_neg hempty, List.map_cons]
        refine List.chain'_cons'.mpr ⟨?_, ih _⟩
        intro y hy
        rw [List.head?_map] at hy
        cases hrest : (splitGo ss W D n (min (cur + W) D)).head? with
        | none => rw [hrest] at hy; simp at hy
        | some w =>
          rw [hrest] at hy
          have hy2 : w.start_time = y := Option.some.inj hy
          rw [← hy2]
          have hmem := List.mem_of_mem_head? (by rw [hrest]; rfl)
          have hcur' := (splitGo_invariant hW n (min (cur + W) D) w hmem).1
          have : cur < min (cur + W) D := lt_min (by linarith) hguard
          show cur < w.start_time
          linarith
    · rw [splitGo_nil_of_le (not_lt.mp hguard)]
      exact List.chain'_nil

/-- Evaluation of the partition of `oneSegMeeting`'s transcript: one emitted
window `[0, 300)` holding the single segment; the second candidate window
`[300, 500)` is empty and discarded. -/
theorem split_eval_segTest :
    split_into_timelines [segTest] 300 500 = [⟨0, 300, [segTest]⟩] := by
  have hceil : ⌈(500 : ℚ) / 300⌉₊ = 2 := by
    rw [Nat.ceil_eq_iff (by norm_num)] <;> norm_num
  rw [split_into_timelines, hceil]
  norm_num [splitGo, rangeSegs_cons, rangeSegs_nil, min_def, segTest]

/-- C1: for every interval width `W > 0` and every transcript, a segment with
`0 ≤ start_time < D` is counted by exactly one emitted window, a segment with
`start_time < 0` or `start_time ≥ D` lies in no emitted window, and
membership in a window is equivalent to the window's half-open range
containing the segment's `start_time` (so membership depends only on
`start_time`, never on `end_time`). -/
theorem claim_c1 {W D : ℚ} (hW : 0 < W) (ss : List TranscriptSegment) :
    ∀ s ∈ ss,
      ((0 ≤ s.start_time ∧ s.start_time < D) →
        ((split_into_timelines ss W D).countP fun w => decide (s ∈ w.segments)) = 1) ∧
      ((s.start_time < 0 ∨ D ≤ s.start_time) →
        ∀ w ∈ split_into_timelines ss W D, s ∉ w.segments) ∧
      (∀ w ∈ split_into_timelines ss W D,
        (s ∈ w.segments ↔ w.start_time ≤ s.start_time ∧ s.start_time < w.end_time)) := by
  intro s hs
  simp only [split_into_timelines]
  have hfuel : ⌈(D - 0) / W⌉₊ ≤ ⌈D / W⌉₊ := by rw [sub_zero]
  have hcov := splitGo_coverage hW ⌈D / W⌉₊ 0 hfuel s hs
  refine ⟨hcov.1, hcov.2, ?_⟩
  intro w hw
  have hinv := splitGo_invariant hW ⌈D / W⌉₊ 0 w hw
  rw [hinv.2.2.2.1]
  simp [rangeSegs, List.mem_filter, hs]

/-- Witness for C1 at a concrete input: interval width 300, duration 500, one
segment starting at 10 — it is counted by exactly one window. -/
theorem claim_c1_witness :
    (0 : ℚ) < 300 ∧ segTest ∈ [segTest] ∧
    (0 ≤ segTest.start_time ∧ segTest.start_time < 500) ∧
    ((split_into_timelines [segTest] 300 500).countP fun w => decide (segTest ∈ w.segments)) = 1 :=
  ⟨by norm_num, List.mem_singleton_self _,
    ⟨by norm_num [segTest], by norm_num [segTest]⟩,
    (claim_c1 (by norm_num) [segTest] segTest (List.mem_singleton_self _)).1
      ⟨by norm_num [segTest], by norm_num [segTest]⟩⟩

/-- C2 (code evaluated at the failing input): with interval width 0 (and
likewise with width −1) and duration 1 the partitioning loop never terminates
— the cursor never reaches the duration — so `summarize_meeting` neither
returns nor raises an input-validation error. -/
theorem claim_c2_nontermination :
    ¬ splitLoopTerminates 0 1 ∧ ¬ splitLoopTerminates (-1) 1 := by
  constructor
  · have hconst : ∀ n, splitCursorIter 0 1 n 0 = 0 := by
      intro n
      induction n with
      | zero => rfl
      | succ m ih =>
        show splitCursorIter 0 1 m (splitStep 0 1 0) = 0
        have hstep : splitStep 0 1 0 = 0 := by norm_num [splitStep, min_def]
        rw [hstep]; exact ih
    rintro ⟨n, hn⟩
    rw [hconst n] at hn
    norm_num at hn
  · have hinv : ∀ (n : ℕ) (cur : ℚ), cur ≤ 0 → splitCursorIter (-1) 1 n cur ≤ 0 := by
      intro n
      induction n with
      | zero => intro cur hcur; exact hcur
      | succ m ih =>
        intro cur hcur
        show splitCursorIter (-1) 1 m (splitStep (-1) 1 cur) ≤ 0
        have hstep : splitStep (-1) 1 cur = cur + -1 := by
          rw [splitStep, if_pos (by linarith : cur < 1), min_eq_left (by linarith)]
        rw [hstep]
        exact ih _ (by linarith)
    rintro ⟨n, hn⟩
    have := hinv n 0 le_rfl
    linarith

/-- C3: the returned `timeline_summaries` is literally the map of the window
summarizer over the partitioner's output in emission order (it is never
re-sorted), and its `start_time`s are strictly increasing. -/
theorem claim_c3 {W : ℚ} (hW : 0 < W) (svc : AzureOpenAIService) (now : ℚ)
    (m : MeetingSession) :
    (summarize_meeting svc W now m).timeline_summaries =
      (split_into_timelines m.transcript W m.duration).map (summarize_timeline_segment svc) ∧
    ((summarize_meeting svc W now m).timeline_summaries.map fun ts => ts.start_time).Chain'
      fun a b => a < b := by
  refine ⟨rfl, ?_⟩
  have h1 : ((summarize_meeting svc W now m).timeline_summaries.map fun ts => ts.start_time) =
      ((split_into_timelines m.transcript W m.duration).map fun w => w.start_time) := by
    show (((split_into_timelines m.transcript W m.duration).map
      (summarize_timeline_segment svc)).map fun ts => ts.start_time) = _
    rw [List.map_map]
    rfl
  rw [h1]
  exact splitGo_start_chain hW ⌈m.duration / W⌉₊ 0

/-- Witness for C3 at a concrete input. -/
theorem claim_c3_witness :
    (0 : ℚ) < 300 ∧
    (summarize_meeting mockService 300 0 oneSegMeeting).timeline_summaries =
      (split_into_timelines oneSegMeeting.transcript 300 oneSegMeeting.duration).map
        (summarize_timeline_segment mockService) :=
  ⟨by norm_num, (claim_c3 (by norm_num) mockService 0 oneSegMeeting).1⟩

/-- Counterexample to C4 as stated: with one segment at time 0, width 2 and
duration 5, the only emitted window is `[0, 2)` (the final tiling window
`[4, 5)` is empty and discarded), so the last emitted window has width 2 even
though `D mod W = 1` is nonzero — the claim predicted width `D mod W`. -/
theorem claim_c4_counterexample :
    pyMod 5 2 ≠ 0 ∧
    ((split_into_timelines [segZero] 2 5).map fun w => w.end_time - w.start_time) = [2] ∧
    ((split_into_timelines [segZero] 2 5).map fun w => w.end_time - w.start_time) ≠
      [pyMod 5 2] := by
  have hfloor : ⌊(5 : ℚ) / 2⌋ = 2 := by
    rw [Int.floor_eq_iff]
    constructor <;> norm_num
  have hmod : pyMod 5 2 = 1 := by
    rw [pyMod, hfloor]; norm_num
  have hceil : ⌈(5 : ℚ) / 2⌉₊ = 3 := by
    rw [Nat.ceil_eq_iff (by norm_num)] <;> norm_num
  have heval : ((split_into_timelines [segZero] 2 5).map fun w => w.end_time - w.start_time)
      = [2] := by
    rw [split_into_timelines, hceil]
    norm_num [splitGo, rangeSegs_cons, rangeSegs_nil, min_def, segZero]
  refine ⟨by rw [hmod]; norm_num, heval, ?_⟩
  rw [heval, hmod]
  norm_num

/-- C4 as amended: every emitted window starts on the `W`-grid and ends at
`min (start + W) D`; an emitted window whose end is not `D` (in particular
every non-final one) has width exactly `W`; an emitted window ending exactly
at `D` — necessarily the final tiling window, when it is emitted — has width
`D mod W` when that is nonzero and `W` otherwise; and a zero duration yields
zero windows.  (The original claim asserted the `D mod W` width for the last
emitted window unconditionally, which fails when the final tiling window is
discarded as empty — see the counterexample.) -/
theorem claim_c4_amended {W D : ℚ} (hW : 0 < W) (hD : 0 ≤ D) (ss : List TranscriptSegment) :
    (∀ w ∈ split_into_timelines ss W D,
      (∃ k : ℕ, w.start_time = k * W) ∧ w.end_time = min (w.start_time + W) D) ∧
    (∀ w ∈ split_into_timelines ss W D, w.end_time ≠ D → w.end_time - w.start_time = W) ∧
    (∀ w ∈ split_into_timelines ss W D, w.end_time = D →
      w.end_time - w.start_time = if pyMod D W = 0 then W else pyMod D W) ∧
    (D = 0 → split_into_timelines ss W D = []) := by
  have hinv : ∀ w ∈ split_into_timelines ss W D,
      w.start_time < D ∧ w.end_time = min (w.start_time + W) D ∧
      ∃ k : ℕ, w.start_time = k * W := by
    intro w hw
    have h := splitGo_invariant hW ⌈D / W⌉₊ 0 w hw
    exact ⟨h.2.1, h.2.2.1, h.2.2.2.2.imp fun k hk => by rw [hk, zero_add]⟩
  refine ⟨?_, ?_, ?_, ?_⟩
  · intro w hw
    exact ⟨(hinv w hw).2.2, (hinv w hw).2.1⟩
  · intro w hw hne
    obtain ⟨hlt, hend, -⟩ := hinv w hw
    rcases le_or_lt (w.start_time + W) D with hle | hgt
    · rw [hend, min_eq_left hle]; ring
    · rw [hend, min_eq_right hgt.le] at hne
      exact absurd rfl hne
  · intro w hw hDend
    obtain ⟨hlt, hend, k, hk⟩ := hinv w hw
    rw [hDend] at hend ⊢
    have hhigh : D ≤ w.start_time + W := min_eq_right_iff.mp hend.symm
    have hlow : (k : ℚ) * W < D := by rw [← hk]; exact hlt
    have hk_le : (k : ℤ) ≤ ⌊D / W⌋ := by
      rw [Int.le_floor]
      push_cast
      rw [le_div_iff hW]
      linarith
    have hfl_le : ⌊D / W⌋ ≤ (k : ℤ) + 1 := by
      have hq : D / W ≤ (k : ℚ) + 1 := by
        rw [div_le_iff hW]
        push_cast
        rw [hk] at hhigh
        linarith
      calc ⌊D / W⌋ ≤ ⌊((k : ℚ) + 1)⌋ := Int.floor_le_floor hq
        _ = (k : ℤ) + 1 := by
            rw [show ((k : ℚ) + 1) = (((k : ℤ) + 1 : ℤ) : ℚ) by push_cast; ring,
              Int.floor_intCast]
    by_cases hm : pyMod D W = 0
    · have hDeq : D = W * ⌊D / W⌋ := by
        rw [pyMod] at hm; linarith
      have hne : ⌊D / W⌋ ≠ (k : ℤ) := by
        intro h
        rw [h] at hDeq
        push_cast at hDeq
        nlinarith
      have hfk : ⌊D / W⌋ = (k : ℤ) + 1 := by omega
      rw [if_pos hm, hk]
      rw [hfk] at hDeq
      push_cast at hDeq
      linarith
    · have hne : ⌊D / W⌋ ≠ (k : ℤ) + 1 := by
        intro h
        apply hm
        have h1 : ((k : ℚ) + 1) ≤ D / W := by
          have := Int.floor_le (D / W)
          rw [h] at this
          push_cast at this
          linarith
        have h2 : D / W ≤ (k : ℚ) + 1 := by
          rw [div_le_iff hW]
          rw [hk] at hhigh
          linarith
        have h3 : D = ((k : ℚ) + 1) * W := by
          have h4 : D / W = (k : ℚ) + 1 := le_antisymm h2 h1
          field_simp at h4
          linarith
        rw [pyMod, h]
        push_cast
        linarith
      have hfk : ⌊D / W⌋ = (k : ℤ) := by omega
      rw [if_neg hm, hk, pyMod, hfk]
      push_cast
      ring
  · intro h0
    subst h0
    rw [split_into_timelines, zero_div, Nat.ceil_zero]
    rfl

/-- Witness for the amended C4 at a concrete input: the single emitted window
of `[segTest]` with width 300 and duration 500 ends at 300 ≠ 500 and has
width exactly 300. -/
theorem claim_c4_witness :
    (0 : ℚ) < 300 ∧ (0 : ℚ) ≤ 500 ∧
    (⟨0, 300, [segTest]⟩ : Timeline) ∈ split_into_timelines [segTest] 300 500 ∧
    (⟨0, 300, [segTest]⟩ : Timeline).end_time - (⟨0, 300, [segTest]⟩ : Timeline).start_time
      = 300 :=
  ⟨by norm_num, by norm_num,
    by rw [split_eval_segTest]; exact List.mem_singleton_self _,
    (@claim_c4_amended 300 500 (by norm_num) (by norm_num) [segTest]).2.1 _
      (by rw [split_eval_segTest]; exact List.mem_singleton_self _) (by norm_num)⟩

/-- C10: with a positive interval width every loop iteration strictly
advances the cursor by `min W (D - cursor)`, the loop terminates (the cursor
reaches the duration after finitely many iterations), and the fuel-indexed
embedding is stable at fuel `⌈D / W⌉₊`, making `split_into_timelines` — and
hence `summarize_meeting` — a total function of its inputs under `0 < W`. -/
theorem claim_c10 {W D : ℚ} (hW : 0 < W) (ss : List TranscriptSegment) :
    (∀ cur : ℚ, cur < D →
      cur < splitStep W D cur ∧ splitStep W D cur - cur = min W (D - cur)) ∧
    splitLoopTerminates W D ∧
    (∀ fuel : ℕ, ⌈D / W⌉₊ ≤ fuel → splitGo ss W D fuel 0 = split_into_timelines ss W D) := by
  refine ⟨?_, split_terminates hW, ?_⟩
  · intro cur hcur
    constructor
    · simp only [splitStep, if_pos hcur]
      exact lt_min (by linarith) hcur
    · simp only [splitStep, if_pos hcur]
      rcases le_total (cur + W) D with h | h
      · rw [min_eq_left h, min_eq_left (by linarith : W ≤ D - cur)]
        ring
      · rw [min_eq_right h, min_eq_right (by linarith : D - cur ≤ W)]
  · intro fuel hfuel
    exact (splitGo_stable hW ⌈D / W⌉₊ fuel 0 (by rw [sub_zero]) hfuel).symm

/-- Witness for C10 at a concrete input: width 300, duration 500. -/
theorem claim_c10_witness :
    (0 : ℚ) < 300 ∧ splitLoopTerminates 300 500 :=
  ⟨by norm_num, (claim_c10 (by norm_num) ([] : List TranscriptSegment)).2.1⟩

/-- C5: when every call on the remote-provider path raises (modelled by the
remote fields returning `none`), the live variant returns exactly the
deterministic fallback's result for the same arguments — for single window
summaries, for the overall summary, after a failed client construction, and
for the whole `summarize_meeting` output, which is then structurally
identical to a fallback-produced one. -/
theorem claim_c5 (svc : AzureOpenAIService)
    (hT : svc.remoteTimeline = fun _ _ _ => none)
    (hO : svc.remoteOverall = fun _ => none) :
    (∀ (t tr : Str) (sp : List Str),
      generate_timeline_summary svc t tr sp = mock_timeline_summary t tr sp) ∧
    (∀ summaries : List TimelineSummary,
      generate_overall_summary svc summaries = mock_overall_summary summaries) ∧
    (∀ (u s : Bool) rt ro (t tr : Str) (sp : List Str),
      generate_timeline_summary (mkAzureOpenAIService u s false rt ro) t tr sp =
        mock_timeline_summary t tr sp) ∧
    (∀ (W now : ℚ) (m : MeetingSession),
      summarize_meeting svc W now m = summarize_meeting mockService W now m) := by
  have hgenT : ∀ (t tr : Str) (sp : List Str),
      generate_timeline_summary svc t tr sp = mock_timeline_summary t tr sp := by
    intro t tr sp
    by_cases h : svc.useMock <;> simp [generate_timeline_summary, h, hT]
  have hgenO : ∀ summaries : List TimelineSummary,
      generate_overall_summary svc summaries = mock_overall_summary summaries := by
    intro summaries
    by_cases h : svc.useMock <;> simp [generate_overall_summary, h, hO]
  refine ⟨hgenT, hgenO, ?_, ?_⟩
  · intro u s rt ro t tr sp
    have hmock : (mkAzureOpenAIService u s false rt ro).useMock = true := by
      cases u <;> cases s <;> rfl
    simp [generate_timeline_summary, hmock]
  · intro W now m
    have hseg : summarize_timeline_segment svc = summarize_timeline_segment mockService := by
      funext w
      simp only [summarize_timeline_segment, hgenT]
      rfl
    have hov : generate_overall_summary svc = generate_overall_summary mockService := by
      funext summaries
      rw [hgenO]
      rfl
    simp only [summarize_meeting, hseg, hov]

/-- Witness for C5 at a concrete input: a live service whose provider always
fails produces, on a concrete meeting, exactly the deterministic variant's
meeting summary. -/
theorem claim_c5_witness :
    failingService.remoteTimeline = (fun _ _ _ => none) ∧
    failingService.remoteOverall = (fun _ => none) ∧
    summarize_meeting failingService 300 0 oneSegMeeting =
      summarize_meeting mockService 300 0 oneSegMeeting :=
  ⟨rfl, rfl, (claim_c5 failingService rfl rfl).2.2.2 300 0 oneSegMeeting⟩

/-- C7: for an arbitrary backend response dict, each summary field is read
with a default — a missing `key_points`, `topics` or `action_items` becomes
the empty list in the window summary, and a missing `overall_summary`,
`key_decisions` or `follow_up_actions` becomes `"No summary available"`
respectively the empty list in the meeting summary; the summarizer is a total
function of the response, so missing keys never raise. -/
theorem claim_c7 (r : TimelineRespDict) (ro : OverallRespDict) :
    (∀ w : Timeline,
      (summarize_timeline_segment (liveServiceConst r ro) w).key_points =
        r.key_points.getD [] ∧
      (summarize_timeline_segment (liveServiceConst r ro) w).topics = r.topics.getD [] ∧
      (summarize_timeline_segment (liveServiceConst r ro) w).action_items =
        r.action_items.getD []) ∧
    (∀ (W now : ℚ) (m : MeetingSession),
      (summarize_meeting (liveServiceConst r ro) W now m).overall_summary =
        ro.overall_summary.getD "No summary available".toList ∧
      (summarize_meeting (liveServiceConst r ro) W now m).key_decisions =
        ro.key_decisions.getD [] ∧
      (summarize_meeting (liveServiceConst r ro) W now m).follow_up_actions =
        ro.follow_up_actions.getD []) ∧
    (r.key_points = none → ∀ w : Timeline,
      (summarize_timeline_segment (liveServiceConst r ro) w).key_points = []) ∧
    (ro.overall_summary = none → ∀ (W now : ℚ) (m : MeetingSession),
      (summarize_meeting (liveServiceConst r ro) W now m).overall_summary =
        "No summary available".toList) := by
  have hw : ∀ w : Timeline,
      (summarize_timeline_segment (liveServiceConst r ro) w).key_points =
        r.key_points.getD [] ∧
      (summarize_timeline_segment (liveServiceConst r ro) w).topics = r.topics.getD [] ∧
      (summarize_timeline_segment (liveServiceConst r ro) w).action_items =
        r.action_items.getD [] := by
    intro w
    exact ⟨rfl, rfl, rfl⟩
  have hm : ∀ (W now : ℚ) (m : MeetingSession),
      (summarize_meeting (liveServiceConst r ro) W now m).overall_summary =
        ro.overall_summary.getD "No summary available".toList ∧
      (summarize_meeting (liveServiceConst r ro) W now m).key_decisions =
        ro.key_decisions.getD [] ∧
      (summarize_meeting (liveServiceConst r ro) W now m).follow_up_actions =
        ro.follow_up_actions.getD [] := by
    intro W now m
    exact ⟨rfl, rfl, rfl⟩
  refine ⟨hw, hm, ?_, ?_⟩
  · intro hnone w
    rw [(hw w).1, hnone]
    rfl
  · intro hnone W now m
    rw [(hm W now m).1, hnone]
    rfl

/-- Witness for C7 at a concrete input: the all-keys-missing response yields
empty `key_points` on a concrete window. -/
theorem claim_c7_witness :
    (⟨none, none, none⟩ : TimelineRespDict).key_points = none ∧
    (summarize_timeline_segment
      (liveServiceConst ⟨none, none, none⟩ ⟨none, none, none⟩)
      ⟨0, 300, [segTest]⟩).key_points = [] :=
  ⟨rfl, (claim_c7 ⟨none, none, none⟩ ⟨none, none, none⟩).2.2.1 rfl ⟨0, 300, [segTest]⟩⟩

/-- If no segment of the transcript starts inside `[0, D)`, every candidate
window is empty and discarded. -/
theorem splitGo_all_out {ss : List TranscriptSegment} {W D : ℚ} (hW : 0 < W)
    (hseg : ∀ s ∈ ss, s.start_time < 0 ∨ D ≤ s.start_time) :
    ∀ (fuel : ℕ) (cur : ℚ), 0 ≤ cur → splitGo ss W D fuel cur = [] := by
  intro fuel
  induction fuel with
  | zero => intro cur _; rfl
  | succ n ih =>
    intro cur hcur
    by_cases hguard : cur < D
    · have hempty : rangeSegs ss cur (min (cur + W) D) = [] := by
        rw [rangeSegs, List.filter_eq_nil_iff]
        intro s hs
        simp only [decide_eq_true_eq, not_and, not_lt]
        intro hle
        rcases hseg s hs with h | h
        · linarith
        · exact le_trans (min_le_right _ _) h
      have hcur' : (0 : ℚ) ≤ min (cur + W) D :=
        le_trans hcur (le_of_lt (lt_min (by linarith) hguard))
      simp only [splitGo, if_pos hguard, if_pos hempty]
      exact ih _ hcur'
    · exact splitGo_nil_of_le (not_lt.mp hguard) _

/-- C9: for a meeting none of whose segments starts inside `[0, duration)`
(in particular an empty transcript, or duration 0), the deterministic variant
returns zero timeline summaries, the overall-summary step still runs over the
empty window-summary list, and `follow_up_actions` is the fixed three-item
canned list because the union of window action items is empty. -/
theorem claim_c9 {W now : ℚ} (hW : 0 < W) (m : MeetingSession)
    (hseg : ∀ s ∈ m.transcript, s.start_time < 0 ∨ m.duration ≤ s.start_time) :
    (summarize_meeting mockService W now m).timeline_summaries = [] ∧
    (summarize_meeting mockService W now m).overall_summary =
      (mock_overall_summary []).overall_summary.getD "No summary available".toList ∧
    (summarize_meeting mockService W now m).key_decisions = cannedKeyDecisions ∧
    (summarize_meeting mockService W now m).follow_up_actions = cannedFollowUps := by
  have hsplit : split_into_timelines m.transcript W m.duration = [] :=
    splitGo_all_out hW hseg _ 0 le_rfl
  refine ⟨?_, ?_, ?_, ?_⟩ <;> simp only [summarize_meeting, hsplit, List.map_nil] <;> rfl

/-- Witness for C9 at a concrete input: the empty meeting. -/
theorem claim_c9_witness :
    (0 : ℚ) < 300 ∧
    (summarize_meeting mockService 300 0 emptyMeeting).timeline_summaries = [] ∧
    (summarize_meeting mockService 300 0 emptyMeeting).follow_up_actions = cannedFollowUps :=
  ⟨by norm_num,
    (@claim_c9 300 0 (by norm_num) emptyMeeting
      (by intro s hs; simp [emptyMeeting] at hs)).1,
    (@claim_c9 300 0 (by norm_num) emptyMeeting
      (by intro s hs; simp [emptyMeeting] at hs)).2.2.2⟩

/-- ASCII lowercasing never produces a newline from a non-newline. -/
theorem toLower_ne_newline (c : Char) (hc : c ≠ '\n') : c.toLower ≠ '\n' := by
  simp only [Char.toLower]
  by_cases h : c.toNat ≥ 65 ∧ c.toNat ≤ 90
  · rw [if_pos h]
    obtain ⟨h1, h2⟩ := h
    revert h1 h2
    generalize c.toNat = n
    intro h1 h2
    interval_cases n <;> decide
  · rw [if_neg h]
    exact hc

/-- Splitting never yields the empty list of lines. -/
theorem splitNl_ne_nil : ∀ t : Str, splitNl t ≠ []
  | [] => by simp [splitNl]
  | c :: cs => by
    by_cases h : c = '\n'
    · simp [splitNl, h]
    · simp only [splitNl, if_neg h]
      cases hcs : splitNl cs <;> simp

/-- The line list is always a cons cell. -/
theorem splitNl_cons_shape (t : Str) : ∃ l ls, splitNl t = l :: ls := by
  cases hcs : splitNl t with
  | nil => exact absurd hcs (splitNl_ne_nil t)
  | cons l ls => exact ⟨l, ls, rfl⟩

/-- Lowercasing commutes with splitting at newlines. -/
theorem splitNl_lower : ∀ t : Str, splitNl (lowerStr t) = (splitNl t).map lowerStr
  | [] => rfl
  | c :: cs => by
    by_cases h : c = '\n'
    · subst h
      show splitNl ('\n'.toLower :: lowerStr cs) = _
      rw [show '\n'.toLower = '\n' from by decide]
      simp only [splitNl, if_pos rfl, splitNl_lower cs, List.map_cons]
      rfl
    · have h2 : c.toLower ≠ '\n' := toLower_ne_newline c h
      show splitNl (c.toLower :: lowerStr cs) = _
      obtain ⟨l, ls, hls⟩ := splitNl_cons_shape cs
      simp only [splitNl, if_neg h2, if_neg h, splitNl_lower cs, hls, List.map_cons]
      rfl

/-- The first line is a prefix of the string. -/
theorem splitNl_headI_prefix : ∀ t : Str, (splitNl t).headI <+: t
  | [] => by simp [splitNl]
  | c :: cs => by
    by_cases h : c = '\n'
    · subst h
      simp [splitNl]
    · simp only [splitNl, if_neg h]
      obtain ⟨l, ls, hls⟩ := splitNl_cons_shape cs
      rw [hls]
      show c :: l <+: c :: cs
      refine List.cons_prefix_cons.mpr ⟨rfl, ?_⟩
      have hp := splitNl_headI_prefix cs
      rw [hls] at hp
      exact hp

/-- A newline-free prefix of a string is a prefix of its first line. -/
theorem prefix_headI_splitNl : ∀ (n t : Str), '\n' ∉ n → n <+: t → n <+: (splitNl t).headI
  | [], t, _, _ => List.nil_prefix
  | d :: n', t, hn, hp => by
    cases t with
    | nil => exact absurd (List.eq_nil_of_prefix_nil hp) (by simp)
    | cons a t' =>
      obtain ⟨rfl, hp'⟩ := List.cons_prefix_cons.mp hp
      have hd : d ≠ '\n' := fun hcontra => hn (hcontra ▸ List.mem_cons_self d n')
      simp only [splitNl, if_neg hd]
      obtain ⟨l, ls, hls⟩ := splitNl_cons_shape t'
      rw [hls]
      show d :: n' <+: d :: l
      refine List.cons_prefix_cons.mpr ⟨rfl, ?_⟩
      have := prefix_headI_splitNl n' t' (fun hm => hn (List.mem_cons_of_mem _ hm)) hp'
      rw [hls] at this
      exact this

/-- Every line is an infix of the string. -/
theorem line_infix_str : ∀ (t : Str), ∀ l ∈ splitNl t, l <:+: t
  | [], l, hl => by
    simp only [splitNl, List.mem_singleton] at hl
    subst hl
    exact List.nil_infix
  | c :: cs, l, hl => by
    by_cases h : c = '\n'
    · subst h
      simp only [splitNl, if_pos rfl] at hl
      rcases List.mem_cons.mp hl with rfl | hl'
      · exact List.nil_infix
      · exact List.infix_cons (line_infix_str cs l hl')
    · simp only [splitNl, if_neg h] at hl
      obtain ⟨hd, tl, hls⟩ := splitNl_cons_shape cs
      rw [hls] at hl
      rcases List.mem_cons.mp hl with rfl | hl'
      · refine (List.cons_prefix_cons.mpr ⟨rfl, ?_⟩).isInfix
        have hp := splitNl_headI_prefix cs
        rw [hls] at hp
        exact hp
      · have : l ∈ splitNl cs := by rw [hls]; exact List.mem_cons_of_mem _ hl'
        exact List.infix_cons (line_infix_str cs l this)

/-- A newline-free string is an infix of `t` iff it is an infix of one of the
lines of `t`. -/
theorem infix_iff_line (n : Str) (hn : '\n' ∉ n) :
    ∀ t : Str, (n <:+: t ↔ ∃ l ∈ splitNl t, n <:+: l) := by
  intro t
  induction t with
  | nil =>
    constructor
    · intro h
      exact ⟨[], by simp [splitNl], h⟩
    · rintro ⟨l, hl, hnl⟩
      simp only [splitNl, List.mem_singleton] at hl
      subst hl
      exact hnl
  | cons c cs ih =>
    constructor
    · intro h
      rcases List.infix_cons_iff.mp h with hpre | hinf
      · have hp := prefix_headI_splitNl n (c :: cs) hn hpre
        obtain ⟨l, ls, hls⟩ := splitNl_cons_shape (c :: cs)
        refine ⟨l, by rw [hls]; exact List.mem_cons_self _ _, ?_⟩
        rw [hls] at hp
        exact hp.isInfix
      · obtain ⟨l, hl, hnl⟩ := ih.mp hinf
        by_cases h : c = '\n'
        · subst h
          exact ⟨l, by simp only [splitNl, if_pos rfl]; exact List.mem_cons_of_mem _ hl, hnl⟩
        · obtain ⟨hd, tl, hls⟩ := splitNl_cons_shape cs
          rw [hls] at hl
          rcases List.mem_cons.mp hl with rfl | hl'
          · refine ⟨c :: l, ?_, List.infix_cons hnl⟩
            simp only [splitNl, if_neg h, hls]
            exact List.mem_cons_self _ _
          · refine ⟨l, ?_, hnl⟩
            simp only [splitNl, if_neg h, hls]
            exact List.mem_cons_of_mem _ hl'
    · rintro ⟨l, hl, hnl⟩
      exact hnl.trans (line_infix_str (c :: cs) l hl)

/-- Bool form: scanning line by line for a newline-free needle is the same as
scanning the whole string. -/
theorem any_pyIn_splitNl (n : Str) (hn : '\n' ∉ n) (t : Str) :
    ((splitNl t).any fun l => pyIn n l) = pyIn n t := by
  by_cases h : n <:+: t
  · obtain ⟨l, hl, hnl⟩ := (infix_iff_line n hn t).mp h
    have h1 : (splitNl t).any (fun l => pyIn n l) = true :=
      List.any_eq_true.mpr ⟨l, hl, by simp [pyIn, hnl]⟩
    rw [h1]
    simp [pyIn, h]
  · have h1 : (splitNl t).any (fun l => pyIn n l) = false := by
      rw [List.any_eq_false]
      intro l hl
      simp only [pyIn, decide_eq_true_eq]
      exact fun hnl => h ((infix_iff_line n hn t).mpr ⟨l, hl, hnl⟩)
    rw [h1]
    simp [pyIn, h]

/-- The number of lines is the newline count plus one. -/
theorem splitNl_length : ∀ t : Str, (splitNl t).length = t.count '\n' + 1
  | [] => rfl
  | c :: cs => by
    by_cases h : c = '\n'
    · subst h
      simp [splitNl, List.count_cons, splitNl_length cs]
    · simp only [splitNl, if_neg h]
      obtain ⟨l, ls, hls⟩ := splitNl_cons_shape cs
      have hlen := splitNl_length cs
      rw [hls] at hlen ⊢
      simp only [List.length_cons] at hlen ⊢
      rw [List.count_cons]
      simp [h, hlen]

/-- None of the (lowercased) mock keywords contains a newline. -/
theorem mockKeywords_no_newline : ∀ k ∈ mockKeywords, '\n' ∉ lowerStr k := by
  decide

/-- C6: the deterministic fallback's window summary has `topics` equal to the
keywords found in the text by case-insensitive substring match, in
keyword-list order, capped at 4, or the fixed generic pair when none match;
`key_points` equal to the fixed canned triple truncated to the number of
newline-separated lines of the text; and `action_items` equal to the fixed
pair exactly when the text case-insensitively contains "test" or "action". -/
theorem claim_c6 (t tr : Str) (sp : List Str) :
    (mock_timeline_summary t tr sp).topics = some
      (if (mockKeywords.filter fun k => pyIn (lowerStr k) (lowerStr t)) = []
        then ["General Discussion".toList, "Planning".toList]
        else (mockKeywords.filter fun k => pyIn (lowerStr k) (lowerStr t)).take 4) ∧
    (mock_timeline_summary t tr sp).key_points =
      some (cannedKeyPoints.take (t.count '\n' + 1)) ∧
    (mock_timeline_summary t tr sp).action_items =
      some (if pyIn "test".toList (lowerStr t) || pyIn "action".toList (lowerStr t)
        then cannedActionItems else []) := by
  have hfilter :
      (mockKeywords.filter fun k => (splitNl t).any fun line => pyIn (lowerStr k) (lowerStr line))
        = mockKeywords.filter fun k => pyIn (lowerStr k) (lowerStr t) := by
    apply List.filter_congr
    intro k hk
    have hnl : '\n' ∉ lowerStr k := mockKeywords_no_newline k hk
    calc ((splitNl t).any fun line => pyIn (lowerStr k) (lowerStr line))
        = ((splitNl t).map lowerStr).any (fun l => pyIn (lowerStr k) l) := by
          rw [List.any_map]
          rfl
      _ = (splitNl (lowerStr t)).any (fun l => pyIn (lowerStr k) l) := by
          rw [splitNl_lower]
      _ = pyIn (lowerStr k) (lowerStr t) := any_pyIn_splitNl _ hnl _
  refine ⟨?_, ?_, rfl⟩
  · show some _ = some _
    simp only [mock_timeline_summary, hfilter]
    congr 1
    by_cases hf : (mockKeywords.filter fun k => pyIn (lowerStr k) (lowerStr t)) = []
    · rw [if_pos hf, if_pos hf]
      rfl
    · rw [if_neg hf, if_neg hf]
  · show some (cannedKeyPoints.take (splitNl t).length) = some _
    rw [splitNl_length]

/-- Rendering an integer that is a natural cast agrees with the natural
rendering. -/
theorem intToStr_natCast (n : ℕ) : intToStr (n : ℤ) = natToStr n := by
  simp [intToStr, Int.toNat_natCast]

/-- Zero padding an integer that is a natural cast agrees with the natural
padding. -/
theorem pad2_natCast (n : ℕ) : pad2 (n : ℤ) = pad2Nat n := by
  by_cases h : n < 10
  · rw [pad2, pad2Nat, if_pos ⟨Int.natCast_nonneg n, by exact_mod_cast h⟩, if_pos h,
      intToStr_natCast]
  · rw [pad2, pad2Nat, if_neg fun hc => h (by exact_mod_cast hc.2), if_neg h, intToStr_natCast]

/-- The Python float remainder with a positive modulus is non-negative. -/
theorem pyMod_nonneg {a b : ℚ} (hb : 0 < b) : 0 ≤ pyMod a b := by
  have h : pyMod a b = b * Int.fract (a / b) := by
    rw [pyMod, Int.fract]
    field_simp
  rw [h]
  exact mul_nonneg hb.le (Int.fract_nonneg _)

/-- Integer floor of a non-negative rational divided by a natural literal, in
terms of the natural floor. -/
theorem floor_div_natCast (x : ℚ) (hx : 0 ≤ x) (n : ℕ) :
    ⌊x / (n : ℚ)⌋ = ((⌊x⌋₊ / n : ℕ) : ℤ) := by
  rw [← Nat.floor_div_nat x n]
  exact (Int.natCast_floor_eq_floor (div_nonneg hx (by positivity))).symm

/-- The code's `_format_time` agrees with the spec's description of the
format for every non-negative number of seconds. -/
theorem format_time_eq_spec (s : ℚ) (hs : 0 ≤ s) : format_time s = formatTimeSpec s := by
  have e3600 : (3600 : ℚ) = ((3600 : ℕ) : ℚ) := by norm_num
  have e60 : (60 : ℚ) = ((60 : ℕ) : ℚ) := by norm_num
  have hsf : ((⌊s⌋₊ : ℤ) : ℤ) = ⌊s⌋ := Int.natCast_floor_eq_floor hs
  have h1 : ⌊s / 3600⌋ = ((⌊s⌋₊ / 3600 : ℕ) : ℤ) := by
    rw [e3600]
    exact floor_div_natCast s hs 3600
  have h60 : ⌊s / 60⌋ = ((⌊s⌋₊ / 60 : ℕ) : ℤ) := by
    rw [e60]
    exact floor_div_natCast s hs 60
  have h2a : pyMod s 3600 = s - ((3600 * (⌊s⌋₊ / 3600) : ℕ) : ℚ) := by
    rw [pyMod, h1]
    push_cast [Int.ofNat_div]
    norm_cast
  have h2b : ⌊pyMod s 3600⌋ = ((⌊s⌋₊ % 3600 : ℕ) : ℤ) := by
    rw [h2a, Int.floor_sub_nat, ← hsf]
    push_cast
    omega
  have h2nn : 0 ≤ pyMod s 3600 := pyMod_nonneg (by norm_num)
  have h2c : ⌊pyMod s 3600⌋₊ = ⌊s⌋₊ % 3600 := by
    have hcast : ((⌊pyMod s 3600⌋₊ : ℕ) : ℤ) = ((⌊s⌋₊ % 3600 : ℕ) : ℤ) := by
      rw [Int.natCast_floor_eq_floor h2nn, h2b]
    exact_mod_cast hcast
  have h2 : ⌊pyMod s 3600 / 60⌋ = (((⌊s⌋₊ % 3600) / 60 : ℕ) : ℤ) := by
    rw [e60, floor_div_natCast (pyMod s 3600) h2nn 60, h2c]
  have h3a : pyMod s 60 = s - ((60 * (⌊s⌋₊ / 60) : ℕ) : ℚ) := by
    rw [pyMod, h60]
    push_cast [Int.ofNat_div]
    norm_cast
  have h3 : ⌊pyMod s 60⌋ = ((⌊s⌋₊ % 60 : ℕ) : ℤ) := by
    rw [h3a, Int.floor_sub_nat, ← hsf]
    push_cast
    omega
  simp only [format_time, formatTimeSpec, h1, h2, h3]
  by_cases hlt : ⌊s⌋₊ < 3600
  · have hq : ⌊s⌋₊ / 3600 = 0 := Nat.div_eq_of_lt hlt
    rw [hq, if_pos hlt, if_neg (by norm_num), intToStr_natCast, pad2_natCast]
    have hmin : ⌊s⌋₊ % 3600 / 60 = ⌊s⌋₊ / 60 := by omega
    rw [hmin]
  · have hq : 0 < ((⌊s⌋₊ / 3600 : ℕ) : ℤ) := by
      have : 0 < ⌊s⌋₊ / 3600 := Nat.div_pos (not_lt.mp hlt) (by norm_num)
      exact_mod_cast this
    rw [if_neg hlt, if_pos hq, intToStr_natCast, pad2_natCast, pad2_natCast]
    have hmin : ⌊s⌋₊ % 3600 / 60 = ⌊s⌋₊ / 60 % 60 := by omega
    rw [hmin]

/-- C8: the window summary's `time_range` is the string
`format(start) ++ " - " ++ format(end)`, where `format` agrees with the
spec's `M:SS` / `H:MM:SS` rendering for every non-negative time; in
particular the windows `[0, 300)` and `[300, 500)` yield the strings
`"0:00 - 5:00"` and `"5:00 - 8:20"`. -/
theorem claim_c8 :
    (∀ s : ℚ, 0 ≤ s → format_time s = formatTimeSpec s) ∧
    (∀ (svc : AzureOpenAIService) (w : Timeline),
      (summarize_timeline_segment svc w).time_range =
        format_time w.start_time ++ " - ".toList ++ format_time w.end_time) ∧
    (∀ (svc : AzureOpenAIService) (segs : List TranscriptSegment),
      (summarize_timeline_segment svc ⟨0, 300, segs⟩).time_range = "0:00 - 5:00".toList ∧
      (summarize_timeline_segment svc ⟨300, 500, segs⟩).time_range = "5:00 - 8:20".toList) := by
  have e0 : format_time 0 = "0:00".toList := by
    rw [format_time_eq_spec 0 le_rfl]
    simp only [formatTimeSpec, Nat.floor_zero]
    decide
  have e300 : format_time 300 = "5:00".toList := by
    rw [format_time_eq_spec 300 (by norm_num)]
    simp only [formatTimeSpec, Nat.floor_ofNat]
    decide
  have e500 : format_time 500 = "8:20".toList := by
    rw [format_time_eq_spec 500 (by norm_num)]
    simp only [formatTimeSpec, Nat.floor_ofNat]
    decide
  refine ⟨format_time_eq_spec, fun svc w => rfl, ?_⟩
  intro svc segs
  constructor
  · show format_time (0 : ℚ) ++ " - ".toList ++ format_time 300 = _
    rw [e0, e300]
    decide
  · show format_time (300 : ℚ) ++ " - ".toList ++ format_time 500 = _
    rw [e300, e500]
    decide

/-- Witness for C8 at a concrete input. -/
theorem claim_c8_witness :
    (0 : ℚ) ≤ 125 ∧ format_time 125 = formatTimeSpec 125 :=
  ⟨by norm_num, claim_c8.1 125 (by norm_num)⟩
